import Mathlib

/-!
Verification development for the Thirukural wallpaper generator
(src/utils.py, src/main.py).

Python strings are modelled as lists of characters; Python word-wrap,
JSON access and the arithmetic of the image composer are embedded as
executable Lean definitions, translated line by line from src/utils.py.
Pixel-width measurement (PIL's draw.textbbox) is an external library
call, so wrap functions are parametrised by a measure function; float
arithmetic of the layout code is modelled over the rationals.
-/

/-- Python exception kinds that the embedded fragments of utils.py can
raise. The spec's abstract names map onto these: EmptyCollectionError is
the IndexError that random.choice raises on an empty sequence, and
DataFormatError is the KeyError raised by a missing top-level key. -/
inductive PyErr where
  | indexError
  | keyError
  | typeError
  deriving DecidableEq, Repr

/-- JSON-like values, the result of json.load in load_thirukural_data. -/
inductive JValue where
  | jnull
  | jstr (s : String)
  | jnum (n : Int)
  | jarr (xs : List JValue)
  | jobj (kvs : List (String × JValue))
  deriving Repr

/-- Python dict key lookup on an association list (dict access d[k]). -/
def jlookup (kvs : List (String × JValue)) (k : String) : Option JValue :=
  match kvs with
  | [] => none
  | (k1, v) :: rest => if k1 = k then some v else jlookup rest k

/-- Embeds load_thirukural_data (src/utils.py lines 19-31) after the file
has been read and parsed: the function body is the single expression
data['features']. A missing key raises KeyError; subscripting a non-dict
raises TypeError. File opening and JSON parsing are external I/O,
abstracted as the already-parsed JValue argument. -/
def load_thirukural_data (data : JValue) : Except PyErr JValue :=
  match data with
  | .jobj kvs =>
    match jlookup kvs "features" with
    | some v => .ok v
    | none => .error .keyError
  | _ => .error .typeError

/-- Embeds get_random_kural (src/utils.py lines 34-45):
random.choice(kurals) followed by random_kural['properties'].
random.choice picks a uniformly random index; the randomness is
modelled by the extra argument i, reduced modulo the length. On an
empty list random.choice raises IndexError. -/
def get_random_kural (kurals : List JValue) (i : Nat) : Except PyErr JValue :=
  if hlen : kurals.length = 0 then
    .error .indexError
  else
    match kurals.get ⟨i % kurals.length, Nat.mod_lt _ (Nat.pos_of_ne_zero hlen)⟩ with
    | .jobj kvs =>
      match jlookup kvs "properties" with
      | some v => .ok v
      | none => .error .keyError
    | _ => .error .typeError

/-- ASCII whitespace recognised by Python str.split() with no argument. -/
def pyIsSpace (c : Char) : Bool :=
  c = ' ' || c = '\t' || c = '\n' || c = '\r' || c = '\x0b' || c = '\x0c'

/-- Helper for pySplit: walks the characters accumulating the current
word in reverse. -/
def splitAux : List Char → List Char → List (List Char)
  | [], cur => if cur = [] then [] else [cur.reverse]
  | c :: cs, cur =>
    if pyIsSpace c then
      if cur = [] then splitAux cs [] else cur.reverse :: splitAux cs []
    else
      splitAux cs (c :: cur)

/-- Python text.split() with no argument: splits on runs of whitespace,
discarding empty pieces (src/utils.py line 144). -/
def pySplit (s : List Char) : List (List Char) := splitAux s []

/-- Python ' '.join(ws) (src/utils.py lines 150, 155, 158). -/
def joinSpace : List (List Char) → List Char
  | [] => []
  | [w] => w
  | w :: x :: ws => w ++ ' ' :: joinSpace (x :: ws)

/-- The word-accumulation loop of draw_wrapped_centered_text
(src/utils.py lines 146-158), carried out on word groups: each produced
group corresponds to one output line (the code stores the joined string
at emission time; joining is applied by wrapLines below). The measure
argument stands for the pixel width bbox[2] - bbox[0] that
draw.textbbox reports for a string under the active font. -/
def wrapGo (m : List Char → Nat) (maxW : Nat) :
    List (List Char) → List (List (List Char)) → List (List Char) →
      List (List (List Char))
  | [], lines, cur => if cur = [] then lines else lines ++ [cur]
  | w :: ws, lines, cur =>
    if m (joinSpace (cur ++ [w])) ≤ maxW then
      wrapGo m maxW ws lines (cur ++ [w])
    else
      wrapGo m maxW ws (lines ++ [cur]) [w]

/-- Word groups produced by the wrap loop from a word list. -/
def wrapGroups (m : List Char → Nat) (maxW : Nat)
    (words : List (List Char)) : List (List (List Char)) :=
  wrapGo m maxW words [] []

/-- The lines list built by draw_wrapped_centered_text from its text
argument (src/utils.py lines 143-158). -/
def wrapLines (m : List Char → Nat) (maxW : Nat) (text : List Char) :
    List (List Char) :=
  (wrapGroups m maxW (pySplit text)).map joinSpace

/-- An additive pixel-width measure: each character has a fixed advance
width and a string measures the sum, the standard model of a font
metric without kerning. -/
def measureAdd (cw : Char → Nat) (s : List Char) : Nat :=
  (s.map cw).sum

/-- Helper for splitNL: Python text.split(chr(10)), keeping empty
pieces. -/
def splitNLAux : List Char → List Char → List (List Char)
  | [], cur => [cur.reverse]
  | c :: cs, cur =>
    if c = '\n' then cur.reverse :: splitNLAux cs [] else splitNLAux cs (c :: cur)

/-- Python text.split(chr(10)) (src/utils.py lines 85-86). -/
def splitNL (s : List Char) : List (List Char) := splitNLAux s []

/-- Embeds the kural text extraction (src/utils.py lines 85-91): the
tamil field is split at an embedded newline when one is present,
otherwise the two bamini fields are used; if the first line is still
empty both lines are taken from the bamini fields. Arguments are the
values of kural_data.get with default the empty string. -/
def extract_kural_lines (tamil1 bamini1 bamini2 : List Char) :
    List Char × List Char :=
  let parts := splitNL tamil1
  let line1 := if '\n' ∈ tamil1 then parts.getD 0 [] else bamini1
  let line2 :=
    if '\n' ∈ tamil1 ∧ parts.length > 1 then parts.getD 1 [] else bamini2
  if line1 = [] then (bamini1, bamini2) else (line1, line2)

/-- Python int() applied to a rational: truncation toward zero. -/
def pyTrunc (q : ℚ) : ℤ := if 0 ≤ q then ⌊q⌋ else ⌈q⌉

/-- Normalized row position y / height of the gradient loop
(src/utils.py line 73), in exact rational arithmetic. -/
def gradRatio (y h : ℕ) : ℚ := (y : ℚ) / (h : ℚ)

/-- Red channel of gradient row y: int(26 + (15 - 26) * ratio)
(src/utils.py line 74). -/
def gradR (y h : ℕ) : ℤ := pyTrunc (26 + (15 - 26) * gradRatio y h)

/-- Green channel of gradient row y: int(26 + (33 - 26) * ratio)
(src/utils.py line 75). -/
def gradG (y h : ℕ) : ℤ := pyTrunc (26 + (33 - 26) * gradRatio y h)

/-- Blue channel of gradient row y: int(46 + (62 - 46) * ratio)
(src/utils.py line 76). -/
def gradB (y h : ℕ) : ℤ := pyTrunc (46 + (62 - 46) * gradRatio y h)

/-- Linear interpolation between endpoints a and b at parameter t,
the operation the spec describes for each color channel. -/
def lerp (a b t : ℚ) : ℚ := a + (b - a) * t

/-- Per-line vertical spacing font.size * 1.3 of
draw_wrapped_centered_text (src/utils.py line 161), in exact rational
arithmetic. -/
def line_height (size : ℚ) : ℚ := size * (13 / 10)

/-- Total block height len(lines) * line_height (src/utils.py line 162). -/
def block_total_height (n : ℕ) (size : ℚ) : ℚ := (n : ℕ) * line_height size

/-- Start ordinate y_center - total_height / 2 (src/utils.py line 163). -/
def block_start_y (yc : ℚ) (n : ℕ) (size : ℚ) : ℚ :=
  yc - block_total_height n size / 2

/-- Ordinate of line i: start_y + i * line_height (src/utils.py line 169). -/
def block_line_y (yc : ℚ) (n : ℕ) (size : ℚ) (i : ℕ) : ℚ :=
  block_start_y yc n size + (i : ℕ) * line_height size

/-- Value returned by draw_wrapped_centered_text (src/utils.py line 171):
the total height of the wrapped block of its text argument. -/
def draw_wrapped_height (m : List Char → Nat) (maxW : Nat)
    (text : List Char) (size : ℚ) : ℚ :=
  block_total_height (wrapLines m maxW text).length size

/-- Claim C1, counterexample: on the one-element collection whose element
is an object wrapping a properties field, get_random_kural returns that
field's value, which is not itself a member of the input collection. -/
theorem get_random_kural_not_member :
    get_random_kural [JValue.jobj [("properties", JValue.jnull)]] 0 =
      Except.ok JValue.jnull ∧
    JValue.jnull ∉ [JValue.jobj [("properties", JValue.jnull)]] := by
  refine ⟨rfl, ?_⟩
  intro h
  rw [List.mem_singleton] at h
  exact JValue.noConfusion h

/-- Claim C1, amended: for every collection and every random index, a
successfully returned value is the value of the properties key of some
member of the input collection (not the member itself). -/
theorem get_random_kural_returns_properties_of_member :
    ∀ (kurals : List JValue) (i : Nat) (v : JValue),
      get_random_kural kurals i = Except.ok v →
      ∃ e ∈ kurals, ∃ kvs, e = JValue.jobj kvs ∧
        jlookup kvs "properties" = some v := by
  intro kurals i v h
  unfold get_random_kural at h
  split at h
  · exact Except.noConfusion h
  next hlen =>
    split at h
    next kvs heq =>
      split at h
      next w hw =>
        refine ⟨_, List.get_mem kurals _ _, kvs, heq, ?_⟩
        rw [hw]
        exact congrArg some (Except.ok.inj h)
      next => exact Except.noConfusion h
    next => exact Except.noConfusion h

/-- Witness for the amended claim C1 at a concrete collection. -/
theorem get_random_kural_returns_properties_of_member_witness :
    ∃ e ∈ [JValue.jobj [("properties", JValue.jnum 7)]], ∃ kvs,
      e = JValue.jobj kvs ∧ jlookup kvs "properties" = some (JValue.jnum 7) :=
  get_random_kural_returns_properties_of_member _ 0 _ rfl

/-- Claim C2: get_random_kural on the empty collection fails, for every
random draw, with the IndexError raised by random.choice on an empty
sequence (the spec's EmptyCollectionError). -/
theorem get_random_kural_empty_fails :
    ∀ i : Nat, get_random_kural [] i = Except.error PyErr.indexError :=
  fun _ => rfl

/-- Claim C3: on a well-formed document whose features key holds an
array, load_thirukural_data returns that array, of the same length as
the document's entry list; on a document missing the features key it
fails with the KeyError (the spec's DataFormatError). -/
theorem load_thirukural_data_spec :
    ∀ (kvs : List (String × JValue)) (entries : List JValue),
      (jlookup kvs "features" = some (JValue.jarr entries) →
        ∃ es, load_thirukural_data (JValue.jobj kvs) =
            Except.ok (JValue.jarr es) ∧ es.length = entries.length)
      ∧ (jlookup kvs "features" = none →
        load_thirukural_data (JValue.jobj kvs) = Except.error PyErr.keyError) := by
  intro kvs entries
  constructor
  · intro h
    refine ⟨entries, ?_, rfl⟩
    simp only [load_thirukural_data, h]
  · intro h
    simp only [load_thirukural_data, h]

/-- Witness for claim C3 at a concrete two-entry document and at a
document missing the features key. -/
theorem load_thirukural_data_spec_witness :
    (∃ es, load_thirukural_data
        (JValue.jobj [("features", JValue.jarr [JValue.jnull, JValue.jnull])]) =
        Except.ok (JValue.jarr es) ∧
        es.length = [JValue.jnull, JValue.jnull].length)
    ∧ load_thirukural_data (JValue.jobj [("other", JValue.jnull)]) =
        Except.error PyErr.keyError :=
  ⟨(load_thirukural_data_spec [("features", JValue.jarr [JValue.jnull, JValue.jnull])]
      [JValue.jnull, JValue.jnull]).1 rfl,
   (load_thirukural_data_spec [("other", JValue.jnull)] []).2 rfl⟩

/-- Splitting distributes over a whitespace character: the characters
before it and after it are split independently. -/
theorem splitAux_append_space (c : Char) (hc : pyIsSpace c = true) :
    ∀ (a cur b : List Char),
      splitAux (a ++ c :: b) cur = splitAux a cur ++ splitAux b [] := by
  intro a
  induction a with
  | nil =>
    intro cur b
    by_cases hcur : cur = []
    · simp [splitAux, hc, hcur]
    · simp [splitAux, hc, hcur]
  | cons x xs ih =>
    intro cur b
    by_cases hx : pyIsSpace x = true
    · by_cases hcur : cur = []
      · simp [splitAux, hx, hcur, ih]
      · simp [splitAux, hx, hcur, ih]
    · simp [splitAux, hx, ih]

/-- Every word produced by splitAux is nonempty and whitespace-free,
provided the accumulated word is whitespace-free. -/
theorem splitAux_words_clean :
    ∀ (s cur : List Char), (∀ ch ∈ cur, pyIsSpace ch = false) →
      ∀ w ∈ splitAux s cur, w ≠ [] ∧ ∀ ch ∈ w, pyIsSpace ch = false := by
  intro s
  induction s with
  | nil =>
    intro cur hcur w hw
    by_cases h : cur = []
    · simp [splitAux, h] at hw
    · simp only [splitAux, if_neg h, List.mem_singleton] at hw
      subst hw
      refine ⟨by simpa using h, ?_⟩
      intro ch hch
      exact hcur ch (List.mem_reverse.mp hch)
  | cons c cs ih =>
    intro cur hcur w hw
    by_cases hc : pyIsSpace c = true
    · by_cases h : cur = []
      · rw [show splitAux (c :: cs) cur = splitAux cs [] by
          simp [splitAux, hc, h]] at hw
        exact ih [] (by intro ch hch; cases hch) w hw
      · rw [show splitAux (c :: cs) cur = cur.reverse :: splitAux cs [] by
          simp [splitAux, hc, h]] at hw
        rcases List.mem_cons.mp hw with hw1 | hw1
        · subst hw1
          refine ⟨by simpa using h, ?_⟩
          intro ch hch
          exact hcur ch (List.mem_reverse.mp hch)
        · exact ih [] (by intro ch hch; cases hch) w hw1
    · rw [show splitAux (c :: cs) cur = splitAux cs (c :: cur) by
        simp [splitAux, hc]] at hw
      refine ih (c :: cur) ?_ w hw
      intro ch hch
      rcases List.mem_cons.mp hch with h1 | h1
      · subst h1
        simpa using hc
      · exact hcur ch h1

/-- splitAux on a whitespace-free string only extends the accumulated
word. -/
theorem splitAux_no_space :
    ∀ (s cur : List Char), (∀ ch ∈ s, pyIsSpace ch = false) →
      splitAux s cur =
        if cur.reverse ++ s = [] then [] else [cur.reverse ++ s] := by
  intro s
  induction s with
  | nil =>
    intro cur hs
    by_cases h : cur = [] <;> simp [splitAux, h]
  | cons c cs ih =>
    intro cur hs
    have hc : pyIsSpace c = false := hs c (List.mem_cons_self c cs)
    rw [show splitAux (c :: cs) cur = splitAux cs (c :: cur) by
      simp [splitAux, hc]]
    rw [ih (c :: cur) (fun ch hch => hs ch (List.mem_cons_of_mem c hch))]
    simp [List.reverse_cons, List.append_assoc]

/-- Python split of a single nonempty whitespace-free word is that word
alone. -/
theorem pySplit_word (w : List Char) (hne : w ≠ [])
    (hclean : ∀ ch ∈ w, pyIsSpace ch = false) : pySplit w = [w] := by
  unfold pySplit
  rw [splitAux_no_space w [] hclean]
  simp [hne]

/-- Python split of a space-joined list of strings is the concatenation
of the splits of the pieces. -/
theorem pySplit_joinSpace (ls : List (List Char)) :
    pySplit (joinSpace ls) = (ls.map pySplit).flatten := by
  induction ls with
  | nil => rfl
  | cons l ls ih =>
    cases ls with
    | nil => simp [joinSpace]
    | cons l2 ls2 =>
      rw [show joinSpace (l :: l2 :: ls2) = l ++ ' ' :: joinSpace (l2 :: ls2)
        from rfl]
      unfold pySplit
      rw [splitAux_append_space ' ' rfl l [] (joinSpace (l2 :: ls2))]
      rw [show splitAux (joinSpace (l2 :: ls2)) [] =
        pySplit (joinSpace (l2 :: ls2)) from rfl, ih]
      simp only [List.map_cons, List.flatten_cons]
      rfl

/-- Joining nonempty whitespace-free words with single spaces and
splitting again recovers the word list. -/
theorem pySplit_joinSpace_eq_self :
    ∀ g : List (List Char),
      (∀ w ∈ g, w ≠ [] ∧ ∀ ch ∈ w, pyIsSpace ch = false) →
      pySplit (joinSpace g) = g := by
  intro g
  induction g with
  | nil =>
    intro hg
    rfl
  | cons w ws ih =>
    intro hg
    rw [pySplit_joinSpace, List.map_cons, List.flatten_cons,
      pySplit_word w (hg w (List.mem_cons_self w ws)).1
        (hg w (List.mem_cons_self w ws)).2]
    have hws := ih fun x hx => hg x (List.mem_cons_of_mem w hx)
    rw [pySplit_joinSpace] at hws
    rw [hws]
    rfl

/-- The words of the groups produced by the wrap loop are exactly the
pending words after the accumulated state, in order: nothing is dropped
or duplicated. -/
theorem wrapGo_flatten (m : List Char → Nat) (maxW : Nat) :
    ∀ (ws : List (List Char)) (lines : List (List (List Char)))
      (cur : List (List Char)),
      (wrapGo m maxW ws lines cur).flatten = lines.flatten ++ cur ++ ws := by
  intro ws
  induction ws with
  | nil =>
    intro lines cur
    by_cases h : cur = [] <;> simp [wrapGo, h]
  | cons w ws ih =>
    intro lines cur
    by_cases h : m (joinSpace (cur ++ [w])) ≤ maxW
    · rw [show wrapGo m maxW (w :: ws) lines cur =
        wrapGo m maxW ws lines (cur ++ [w]) by simp [wrapGo, h]]
      rw [ih]
      simp
    · rw [show wrapGo m maxW (w :: ws) lines cur =
        wrapGo m maxW ws (lines ++ [cur]) [w] by simp [wrapGo, h]]
      rw [ih]
      simp

/-- Width invariant of the wrap loop: when every pending word fits the
maximum on its own, every produced line fits the maximum. -/
theorem wrapGo_width_le (m : List Char → Nat) (maxW : Nat) :
    ∀ (ws : List (List Char)) (lines : List (List (List Char)))
      (cur : List (List Char)),
      (∀ w ∈ ws, m w ≤ maxW) →
      (∀ g ∈ lines, m (joinSpace g) ≤ maxW) →
      (cur = [] ∨ m (joinSpace cur) ≤ maxW) →
      ∀ g ∈ wrapGo m maxW ws lines cur, m (joinSpace g) ≤ maxW := by
  intro ws
  induction ws with
  | nil =>
    intro lines cur hws hlines hcur g hg
    by_cases h : cur = []
    · rw [show wrapGo m maxW [] lines cur = lines by simp [wrapGo, h]] at hg
      exact hlines g hg
    · rw [show wrapGo m maxW [] lines cur = lines ++ [cur] by
        simp [wrapGo, h]] at hg
      rcases List.mem_append.mp hg with h1 | h1
      · exact hlines g h1
      · rw [List.mem_singleton] at h1
        subst h1
        rcases hcur with h2 | h2
        · exact absurd h2 h
        · exact h2
  | cons w ws ih =>
    intro lines cur hws hlines hcur g hg
    have hw : m w ≤ maxW := hws w (List.mem_cons_self w ws)
    have hws2 : ∀ x ∈ ws, m x ≤ maxW :=
      fun x hx => hws x (List.mem_cons_of_mem w hx)
    by_cases h : m (joinSpace (cur ++ [w])) ≤ maxW
    · rw [show wrapGo m maxW (w :: ws) lines cur =
        wrapGo m maxW ws lines (cur ++ [w]) by simp [wrapGo, h]] at hg
      exact ih lines (cur ++ [w]) hws2 hlines (Or.inr h) g hg
    · rw [show wrapGo m maxW (w :: ws) lines cur =
        wrapGo m maxW ws (lines ++ [cur]) [w] by simp [wrapGo, h]] at hg
      have hcur2 : m (joinSpace cur) ≤ maxW := by
        rcases hcur with h2 | h2
        · exfalso
          apply h
          rw [h2]
          simpa [joinSpace] using hw
        · exact h2
      refine ih (lines ++ [cur]) [w] hws2 ?_
        (Or.inr (by simpa [joinSpace] using hw)) g hg
      intro g2 hg2
      rcases List.mem_append.mp hg2 with h1 | h1
      · exact hlines g2 h1
      · rw [List.mem_singleton] at h1
        subst h1
        exact hcur2

/-- Exception invariant of the wrap loop, for a measure that gives the
empty string width zero: every produced line fits the maximum or is one
single word that alone exceeds the maximum. -/
theorem wrapGo_width_disj (m : List Char → Nat) (maxW : Nat)
    (hm0 : m [] = 0) :
    ∀ (ws : List (List Char)) (lines : List (List (List Char)))
      (cur : List (List Char)),
      (∀ g ∈ lines, m (joinSpace g) ≤ maxW ∨ ∃ w, g = [w] ∧ maxW < m w) →
      (cur = [] ∨ m (joinSpace cur) ≤ maxW ∨ ∃ w, cur = [w] ∧ maxW < m w) →
      ∀ g ∈ wrapGo m maxW ws lines cur,
        m (joinSpace g) ≤ maxW ∨ ∃ w, g = [w] ∧ maxW < m w := by
  intro ws
  induction ws with
  | nil =>
    intro lines cur hlines hcur g hg
    by_cases h : cur = []
    · rw [show wrapGo m maxW [] lines cur = lines by simp [wrapGo, h]] at hg
      exact hlines g hg
    · rw [show wrapGo m maxW [] lines cur = lines ++ [cur] by
        simp [wrapGo, h]] at hg
      rcases List.mem_append.mp hg with h1 | h1
      · exact hlines g h1
      · rw [List.mem_singleton] at h1
        subst h1
        rcases hcur with h2 | h2
        · exact absurd h2 h
        · exact h2
  | cons w ws ih =>
    intro lines cur hlines hcur g hg
    by_cases h : m (joinSpace (cur ++ [w])) ≤ maxW
    · rw [show wrapGo m maxW (w :: ws) lines cur =
        wrapGo m maxW ws lines (cur ++ [w]) by simp [wrapGo, h]] at hg
      exact ih lines (cur ++ [w]) hlines (Or.inr (Or.inl h)) g hg
    · rw [show wrapGo m maxW (w :: ws) lines cur =
        wrapGo m maxW ws (lines ++ [cur]) [w] by simp [wrapGo, h]] at hg
      have hcurD : m (joinSpace cur) ≤ maxW ∨ ∃ x, cur = [x] ∧ maxW < m x := by
        rcases hcur with h2 | h2 | h2
        · subst h2
          exact Or.inl (by simp [joinSpace, hm0])
        · exact Or.inl h2
        · exact Or.inr h2
      have hwD : ([w] : List (List Char)) = [] ∨
          m (joinSpace [w]) ≤ maxW ∨ ∃ x, ([w] : List (List Char)) = [x] ∧ maxW < m x := by
        by_cases hw : m w ≤ maxW
        · exact Or.inr (Or.inl (by simpa [joinSpace] using hw))
        · exact Or.inr (Or.inr ⟨w, rfl, Nat.lt_of_not_le hw⟩)
      refine ih (lines ++ [cur]) [w] ?_ hwD g hg
      intro g2 hg2
      rcases List.mem_append.mp hg2 with h1 | h1
      · exact hlines g2 h1
      · rw [List.mem_singleton] at h1
        subst h1
        exact hcurD

/-- Claim C4: for every measure and input text, when the maximum width
is at least the measured width of every single word of the text, every
line produced by draw_wrapped_centered_text measures at most the
maximum; and for a measure giving the empty string width zero, every
produced line in general either fits the maximum or is a single word of
the text that alone exceeds it and stands unbroken as its own line. -/
theorem wrapLines_width (m : List Char → Nat) (maxW : Nat)
    (text : List Char) :
    ((∀ w ∈ pySplit text, m w ≤ maxW) →
      ∀ l ∈ wrapLines m maxW text, m l ≤ maxW)
    ∧ (m [] = 0 →
      ∀ l ∈ wrapLines m maxW text,
        m l ≤ maxW ∨ (l ∈ pySplit text ∧ maxW < m l)) := by
  constructor
  · intro hws l hl
    unfold wrapLines wrapGroups at hl
    rcases List.mem_map.mp hl with ⟨g, hg, rfl⟩
    exact wrapGo_width_le m maxW (pySplit text) [] [] hws
      (by intro g2 h2; cases h2) (Or.inl rfl) g hg
  · intro hm0 l hl
    unfold wrapLines wrapGroups at hl
    rcases List.mem_map.mp hl with ⟨g, hg, rfl⟩
    rcases wrapGo_width_disj m maxW hm0 (pySplit text) [] []
        (by intro g2 h2; cases h2) (Or.inl rfl) g hg with h | ⟨w, rfl, hlt⟩
    · exact Or.inl h
    · refine Or.inr ⟨?_, by simpa [joinSpace] using hlt⟩
      rw [show joinSpace [w] = w from rfl]
      have hmem : w ∈ (wrapGo m maxW (pySplit text) [] []).flatten :=
        List.mem_flatten.mpr ⟨[w], hg, List.mem_singleton.mpr rfl⟩
      rw [wrapGo_flatten] at hmem
      simpa using hmem

/-- Witness for claim C4 at a concrete text and measure: with character
count as the measure and maximum width five, both words of the text fit
and every produced line fits. -/
theorem wrapLines_width_witness :
    (∀ w ∈ pySplit ['a', 'b', ' ', 'c', 'd'], List.length w ≤ 5) ∧
    ∀ l ∈ wrapLines List.length 5 ['a', 'b', ' ', 'c', 'd'],
      List.length l ≤ 5 :=
  ⟨by decide,
   (wrapLines_width List.length 5 ['a', 'b', ' ', 'c', 'd']).1 (by decide)⟩

/-- Claim C5: joining all lines produced by draw_wrapped_centered_text
with single spaces and splitting on whitespace again yields exactly the
original whitespace-delimited word sequence of the text, for every
measure and maximum width: no word dropped, none duplicated, order
preserved. -/
theorem wrapLines_roundtrip (m : List Char → Nat) (maxW : Nat)
    (text : List Char) :
    pySplit (joinSpace (wrapLines m maxW text)) = pySplit text := by
  unfold wrapLines wrapGroups
  rw [pySplit_joinSpace, List.map_map]
  have hclean := splitAux_words_clean text [] (by intro ch hch; cases hch)
  have hmap : ∀ g ∈ wrapGo m maxW (pySplit text) [] [],
      (pySplit ∘ joinSpace) g = id g := by
    intro g hg
    have hsub : ∀ w ∈ g, w ≠ [] ∧ ∀ ch ∈ w, pyIsSpace ch = false := by
      intro w hw
      have hwmem : w ∈ (wrapGo m maxW (pySplit text) [] []).flatten :=
        List.mem_flatten.mpr ⟨g, hg, hw⟩
      rw [wrapGo_flatten] at hwmem
      simp only [List.flatten_nil, List.nil_append] at hwmem
      exact hclean w hwmem
    exact pySplit_joinSpace_eq_self g hsub
  rw [List.map_congr_left hmap, List.map_id]
  have hfl := wrapGo_flatten m maxW (pySplit text) [] []
  simpa using hfl

/-- Claim C10: the wrap primitive tokenizes by splitting on all
whitespace, newline included, so wrapping two line strings joined by a
newline produces exactly the same lines, and the same returned block
height, as wrapping them joined by a single space: the embedded line
break of the secondary block is not preserved as a forced break. -/
theorem wrapLines_newline_eq_space (m : List Char → Nat) (maxW : Nat)
    (l1 l2 : List Char) (size : ℚ) :
    wrapLines m maxW (l1 ++ '\n' :: l2) = wrapLines m maxW (l1 ++ ' ' :: l2)
    ∧ draw_wrapped_height m maxW (l1 ++ '\n' :: l2) size =
      draw_wrapped_height m maxW (l1 ++ ' ' :: l2) size := by
  have hsplit : pySplit (l1 ++ '\n' :: l2) = pySplit (l1 ++ ' ' :: l2) := by
    unfold pySplit
    rw [splitAux_append_space '\n' rfl l1 [] l2,
      splitAux_append_space ' ' rfl l1 [] l2]
  constructor
  · unfold wrapLines wrapGroups
    rw [hsplit]
  · unfold draw_wrapped_height wrapLines wrapGroups
    rw [hsplit]

/-- Python split on newline always produces at least one piece. -/
theorem splitNLAux_length_pos :
    ∀ (s cur : List Char), 1 ≤ (splitNLAux s cur).length := by
  intro s
  induction s with
  | nil =>
    intro cur
    simp [splitNLAux]
  | cons c cs ih =>
    intro cur
    by_cases hc : c = '\n'
    · simp [splitNLAux, hc]
    · rw [show splitNLAux (c :: cs) cur = splitNLAux cs (c :: cur) by
        simp [splitNLAux, hc]]
      exact ih (c :: cur)

/-- Python split on newline of a string containing a newline produces at
least two pieces. -/
theorem splitNLAux_length_two :
    ∀ (s cur : List Char), '\n' ∈ s → 2 ≤ (splitNLAux s cur).length := by
  intro s
  induction s with
  | nil =>
    intro cur hmem
    cases hmem
  | cons c cs ih =>
    intro cur hmem
    by_cases hc : c = '\n'
    · rw [show splitNLAux (c :: cs) cur = cur.reverse :: splitNLAux cs [] by
        simp [splitNLAux, hc]]
      have := splitNLAux_length_pos cs []
      simp only [List.length_cons]
      omega
    · rw [show splitNLAux (c :: cs) cur = splitNLAux cs (c :: cur) by
        simp [splitNLAux, hc]]
      rcases List.mem_cons.mp hmem with h1 | h1
      · exact absurd h1.symm hc
      · exact ih (c :: cur) h1

/-- Claim C6: the displayed line pair follows the ordered fallback
chain of create_wallpaper_image: a tamil field containing a newline is
split there into the two lines (a second piece always exists);
otherwise the two bamini fields are used; when the first extracted line
is empty the bamini pair is used unconditionally; in particular an
empty tamil field with a nonempty first bamini field yields the bamini
content for the secondary block. -/
theorem extract_kural_lines_spec (t b1 b2 : List Char) :
    ('\n' ∈ t →
      ((splitNL t).getD 0 [] ≠ [] →
        extract_kural_lines t b1 b2 =
          ((splitNL t).getD 0 [], (splitNL t).getD 1 []))
      ∧ ((splitNL t).getD 0 [] = [] →
        extract_kural_lines t b1 b2 = (b1, b2)))
    ∧ ('\n' ∉ t → extract_kural_lines t b1 b2 = (b1, b2))
    ∧ (t = [] → b1 ≠ [] → extract_kural_lines t b1 b2 = (b1, b2)) := by
  have h2 : '\n' ∉ t → extract_kural_lines t b1 b2 = (b1, b2) := by
    intro hnot
    simp [extract_kural_lines, hnot]
  refine ⟨?_, h2, ?_⟩
  · intro hmem
    have hlen : 1 < (splitNL t).length := splitNLAux_length_two t [] hmem
    constructor
    · intro hne
      show (if (if '\n' ∈ t then (splitNL t).getD 0 [] else b1) = []
          then (b1, b2)
          else (if '\n' ∈ t then (splitNL t).getD 0 [] else b1,
            if '\n' ∈ t ∧ (splitNL t).length > 1 then (splitNL t).getD 1 []
            else b2)) =
        ((splitNL t).getD 0 [], (splitNL t).getD 1 [])
      rw [if_pos hmem, if_pos (⟨hmem, hlen⟩ : _ ∧ _), if_neg hne]
    · intro heq
      show (if (if '\n' ∈ t then (splitNL t).getD 0 [] else b1) = []
          then (b1, b2)
          else (if '\n' ∈ t then (splitNL t).getD 0 [] else b1,
            if '\n' ∈ t ∧ (splitNL t).length > 1 then (splitNL t).getD 1 []
            else b2)) =
        (b1, b2)
      rw [if_pos hmem, if_pos (⟨hmem, hlen⟩ : _ ∧ _), if_pos heq]
  · intro ht hb1
    subst ht
    exact h2 (by simp)

/-- Witness for claim C6 at a concrete record: a tamil field with an
embedded newline is split into its two pieces. -/
theorem extract_kural_lines_spec_witness :
    extract_kural_lines ['a', '\n', 'b'] ['x'] ['y'] =
      ((splitNL ['a', '\n', 'b']).getD 0 [],
        (splitNL ['a', '\n', 'b']).getD 1 []) :=
  ((extract_kural_lines_spec ['a', '\n', 'b'] ['x'] ['y']).1
    (by decide)).1 (by decide)

/-- Claim C7: for every row y of the background with 0 <= y < height,
each color channel of the gradient equals the linear interpolation
between the fixed top color (26, 26, 46) and the fixed bottom color
(15, 33, 62) at the normalized row position y / height, truncated to an
integer (here equal to the floor, the values being nonnegative); the
position is 0 at the top row. -/
theorem gradient_lerp (y h : ℕ) (h0 : 0 < h) (hy : y < h) :
    gradR y h = ⌊lerp 26 15 (gradRatio y h)⌋
    ∧ gradG y h = ⌊lerp 26 33 (gradRatio y h)⌋
    ∧ gradB y h = ⌊lerp 46 62 (gradRatio y h)⌋
    ∧ gradRatio 0 h = 0 := by
  have hr0 : (0 : ℚ) ≤ gradRatio y h := by
    unfold gradRatio
    positivity
  have hr1 : gradRatio y h ≤ 1 := by
    unfold gradRatio
    rw [div_le_one (by exact_mod_cast h0)]
    exact_mod_cast Nat.le_of_lt hy
  refine ⟨?_, ?_, ?_, ?_⟩
  · unfold gradR pyTrunc lerp
    rw [if_pos (by nlinarith)]
  · unfold gradG pyTrunc lerp
    rw [if_pos (by nlinarith)]
  · unfold gradB pyTrunc lerp
    rw [if_pos (by nlinarith)]
  · unfold gradRatio
    simp

/-- Witness for claim C7 at the middle row of a two-row canvas. -/
theorem gradient_lerp_witness :
    gradR 1 2 = ⌊lerp 26 15 (gradRatio 1 2)⌋
    ∧ gradG 1 2 = ⌊lerp 26 33 (gradRatio 1 2)⌋
    ∧ gradB 1 2 = ⌊lerp 46 62 (gradRatio 1 2)⌋
    ∧ gradRatio 0 2 = 0 :=
  gradient_lerp 1 2 (by decide) (by decide)

/-- Claim C8: in every block drawn by draw_wrapped_centered_text,
consecutive lines are spaced vertically by exactly 1.3 times the nominal
font size, the first line starts at the caller-supplied center minus
half the total block height, and the returned total height equals the
number of lines times that spacing. -/
theorem block_layout (m : List Char → Nat) (maxW : Nat) (text : List Char)
    (size yc : ℚ) :
    (∀ i : ℕ,
      block_line_y yc (wrapLines m maxW text).length size (i + 1) -
        block_line_y yc (wrapLines m maxW text).length size i =
        13 / 10 * size)
    ∧ block_line_y yc (wrapLines m maxW text).length size 0 =
        yc - draw_wrapped_height m maxW text size / 2
    ∧ draw_wrapped_height m maxW text size =
        ((wrapLines m maxW text).length : ℚ) * (13 / 10 * size) := by
  refine ⟨?_, ?_, ?_⟩
  · intro i
    unfold block_line_y block_start_y block_total_height line_height
    push_cast
    ring
  · unfold block_line_y block_start_y draw_wrapped_height
      block_total_height line_height
    push_cast
    ring
  · unfold draw_wrapped_height block_total_height line_height
    ring
